import Mathlib

/-!
Shallow embedding of `src/App/PropertyExpressionEngine.cpp` (FreeCAD's
property expression engine).

Paths (`App::ObjectIdentifier`) and document objects are represented by
natural-number identifiers.  The external collaborators (the path library,
the expression library, the host object graph) are not part of the source
under verification; following the specification they are modelled as an
environment of functions (`Env`) and as opaque data carried by expressions
(`Expr`).  The engine code itself (binding store, graph builder, cycle
detection, evaluation order, maintenance handlers) is translated
function-by-function from the C++ source.
-/

set_option maxHeartbeats 1000000

namespace PEE

/-- Side effects the engine performs on its host: change signals and
back-link registration (`expressionChanged`, `aboutToSetValue` /
`hasSetValue`, `_addBackLink`, `_removeBackLink`). -/
inductive Op where
  | aboutToSet : Op
  | hasSet : Op
  | changed (path : Nat) : Op
  | addBackLink (obj : Nat) : Op
  | removeBackLink (obj : Nat) : Op
  deriving Repr, DecidableEq

/-- Model of `App::Expression` as consumed by the engine (spec §3
"Expression"): an identity (standing for the C++ object address used by
the `expr == it->second.expression` shortcut), the dependency grouping
returned by `getDeps()` (`object -> property name -> referenced paths`),
the set returned by `getDepObjects()`, and the evaluation operation. -/
structure Expr where
  id : Nat
  deps : List (Nat × List (String × List Nat))
  depObjects : List Nat
  eval : (Nat → Int) → Int

/-- `Expression::copy()`: a deep copy has the same dependencies, the same
evaluation behaviour and is a distinct C++ object.  The engine never
compares the identity of a clone, so the model keeps `id` unchanged. -/
def Expr.copy (e : Expr) : Expr := e

/-- `PropertyExpressionEngine::ExpressionInfo`: expression plus comment. -/
structure ExpressionInfo where
  expression : Expr
  comment : String

/-- The binding store (`ExpressionMap`): an association list from
canonical path to `ExpressionInfo`, with unique keys in any reachable
state. -/
abbrev ExpressionMap := List (Nat × ExpressionInfo)

/-- Engine state: live store, staging store filled by `Restore`, the
re-entrancy flag and the optional validator callback. -/
structure Engine where
  expressions : ExpressionMap
  restoredExpressions : ExpressionMap
  running : Bool
  validator : Option (Nat → Expr → String)

/-- What `ObjectIdentifier::getProperty(&ptype)` reports about the
property a path resolves to: its container (as a `DocumentObject` when it
is one), the path type, whether the property is itself a
`PropertyExpressionEngine`, whether it carries the `Output` status, and
whether `Property::getPathValue` succeeds on it. -/
structure PropInfo where
  container : Option Nat
  ptype : Nat
  isExprEngine : Bool
  isOutput : Bool
  pathValueOk : Bool

/-- The host environment (spec §6.5 collaborator contracts): the engine's
container, path resolution, the path library's own canonicalization
(`ObjectIdentifier::canonicalPath`), `getDocumentObject`, the reverse-link
closure `getInListEx(true)`, and rendering helpers. -/
structure Env where
  container : Option Nat
  getProperty : Nat → Option PropInfo
  oidCanonical : Nat → Nat
  oidDocObj : Nat → Option Nat
  inListEx : Nat → List Nat
  objName : Nat → String
  pathToString : Nat → String
  resolveErrorString : Nat → String

/-! ### Association-list helpers (model of `std::map` / `boost::unordered_map`) -/

/-- Key lookup. -/
def lookupAL {α : Type} (l : List (Nat × α)) (k : Nat) : Option α :=
  (l.find? (fun e => e.1 == k)).map (fun e => e.2)

/-- `m[k] = v`: replace the entry in place if the key is present,
otherwise append a new entry. -/
def insertAL {α : Type} (l : List (Nat × α)) (k : Nat) (v : α) : List (Nat × α) :=
  match lookupAL l k with
  | some _ => l.map (fun e => if e.1 == k then (k, v) else e)
  | none => l ++ [(k, v)]

/-- `m.erase(k)`. -/
def eraseAL {α : Type} (l : List (Nat × α)) (k : Nat) : List (Nat × α) :=
  l.filter (fun e => ¬ e.1 == k)

/-! ### `canonicalPath` (PropertyExpressionEngine.cpp lines 249-273) -/

/-- `PropertyExpressionEngine::canonicalPath`: requires a `DocumentObject`
container and a resolvable path; paths of type ≠ 0, paths into foreign
containers and paths at a `PropertyExpressionEngine` are returned
unchanged; otherwise the path library's canonicalization is applied. -/
def canonicalPath (env : Env) (p : Nat) : Except String Nat :=
  match env.container with
  | none => .error "PropertyExpressionEngine must be owned by a DocumentObject."
  | some _ =>
    match env.getProperty p with
    | none => .error (env.resolveErrorString p)
    | some pi =>
      if pi.ptype ≠ 0 ∨ pi.container ≠ env.container then .ok p
      else if pi.isExprEngine then .ok p
      else .ok (env.oidCanonical p)

/-! ### `getPathValue` (lines 348-359) -/

/-- `PropertyExpressionEngine::getPathValue`: canonicalize, then look up;
the result is the binding or "absent" (`boost::any()`).  Canonicalization
failures propagate as exceptions. -/
def getPathValue (env : Env) (s : Engine) (path : Nat) : Except String (Option ExpressionInfo) :=
  match canonicalPath env path with
  | .error e => .error e
  | .ok usePath => .ok (lookupAL s.expressions usePath)

/-! ### Graph builder (lines 210-241 and 469-506) -/

/-- State threaded through `buildGraphStructures`: the dense index map,
its partial inverse (filled only for output paths) and the edge list. -/
structure GraphState where
  nodes : List (Nat × Nat)
  revNodes : List (Nat × Nat)
  edges : List (Nat × Nat)

/-- The inner step of `buildGraphStructures` for one dependency path
`oid`: canonicalize it, assign a fresh dense index if it is new, and push
the edge `(nodes[path], nodes[cPath])`. -/
def addDep (env : Env) (path : Nat) (st : GraphState) (oid : Nat) : GraphState :=
  let cPath := env.oidCanonical oid
  let nodes1 :=
    match lookupAL st.nodes cPath with
    | none => st.nodes ++ [(cPath, st.nodes.length)]
    | some _ => st.nodes
  { nodes := nodes1, revNodes := st.revNodes,
    edges := st.edges ++
      [((lookupAL nodes1 path).getD 0, (lookupAL nodes1 cPath).getD 0)] }

/-- First step of `buildGraphStructures` (lines 217-224): insert the
target path into the node map if new, and record it in the reverse map. -/
def insertOutputNode (path : Nat) (st : GraphState) : GraphState :=
  match lookupAL st.nodes path with
  | none =>
    { st with revNodes := insertAL st.revNodes st.nodes.length path,
              nodes := st.nodes ++ [(path, st.nodes.length)] }
  | some i => { st with revNodes := insertAL st.revNodes i path }

/-- `PropertyExpressionEngine::buildGraphStructures`: insert the target
path into the node map (and the reverse map), then walk the dependency
grouping, skipping entries whose property name is empty, canonicalizing
every dependency path, and emitting one edge per dependency. -/
def buildGraphStructures (env : Env) (path : Nat) (e : Expr) (st : GraphState) : GraphState :=
  e.deps.foldl (fun acc dep =>
    dep.2.foldl (fun acc2 pr =>
      if pr.1 = "" then acc2
      else pr.2.foldl (addDep env path) acc2) acc) (insertOutputNode path st)

/-- The filtered store walk of `buildGraph` (lines 476-486): with a
non-negative output filter, every key must resolve to a property and only
bindings whose `Output` status matches the filter are added. -/
def buildGraphCore (env : Env) (exprs : ExpressionMap) (output : Int) :
    Except String GraphState :=
  exprs.foldlM (fun st v =>
    if output ≥ 0 then
      match env.getProperty v.1 with
      | none => .error "Path does not resolve to a property."
      | some pi =>
        if pi.isOutput == decide ((0 : Int) < output) then
          .ok (buildGraphStructures env v.1 v.2.expression st)
        else .ok st
    else .ok (buildGraphStructures env v.1 v.2.expression st)) ⟨[], [], []⟩

/-- Vertex count of the boost graph: it is created with
`DiGraph(revNodes.size())` and `add_edge` grows it to cover every edge
endpoint. -/
def graphSize (init : Nat) (es : List (Nat × Nat)) : Nat :=
  es.foldl (fun m e => max m (max (e.1 + 1) (e.2 + 1))) init

/-- Bounded reachability used by the cycle detector: is there a walk of
between 1 and `fuel` edges from `u` to `v`? -/
def reachB (es : List (Nat × Nat)) : Nat → Nat → Nat → Bool
  | 0, _, _ => false
  | fuel + 1, u, v =>
    ((es.filter (fun e => e.1 == u)).map (fun e => e.2)).any
      (fun w => w == v || reachB es fuel w v)

/-- Model of the boost depth-first search with `cycle_detector` (lines
447-460, 495-505): report some vertex lying on a cycle, `none` if the
graph is acyclic.  The concrete vertex reported by the back-edge visitor
depends on boost's traversal order; the model reports the first vertex
that can reach itself. -/
def cycleSrc (es : List (Nat × Nat)) (n : Nat) : Option Nat :=
  (List.range n).find? (fun v => reachB es n v v)

/-- `PropertyExpressionEngine::buildGraph`: build the node/edge
structures, create the graph, and throw `"... reference creates a cyclic
dependency."` if the depth-first search finds a back edge.  Returns the
reverse node map, the vertex count and the edge list. -/
def buildGraph (env : Env) (exprs : ExpressionMap) (output : Int) :
    Except String (List (Nat × Nat) × Nat × List (Nat × Nat)) :=
  match buildGraphCore env exprs output with
  | .error e => .error e
  | .ok st =>
    let n := graphSize st.revNodes.length st.edges
    match cycleSrc st.edges n with
    | some src =>
      .error ((((lookupAL st.revNodes src).map env.pathToString).getD "") ++
        " reference creates a cyclic dependency.")
    | none => .ok (st.revNodes, n, st.edges)

/-! ### `validateExpression` (lines 680-725) -/

/-- `newExpressions[usePath].expression = exprClone`: replace the
expression of an existing entry keeping its comment, or default-construct
a new entry holding the clone. -/
def insertExprOnly (exprs : ExpressionMap) (k : Nat) (e : Expr) : ExpressionMap :=
  match lookupAL exprs k with
  | some _ => exprs.map (fun v => if v.1 == k then (v.1, ⟨e, v.2.comment⟩) else v)
  | none => exprs ++ [(k, ⟨e, ""⟩)]

/-- `PropertyExpressionEngine::validateExpression`: canonicalize the
path, consult the optional validator, reject dependency objects lying in
the host object's reverse-link closure, then build the hypothetical graph
over `current bindings ∪ (path -> clone)`; a cyclic-dependency exception
is converted into the returned diagnostic.  The empty string means
success.  (`assert(pathDocObj)` is modelled as a thrown error.) -/
def validatorMsg (s : Engine) (usePath : Nat) (e : Expr) : String :=
  match s.validator with
  | some f => f usePath e
  | none => ""

def validateExpression (env : Env) (s : Engine) (path : Nat) (e : Expr) :
    Except String String :=
  match canonicalPath env path with
  | .error err => .error err
  | .ok usePath =>
    if (validatorMsg s usePath e).length > 0 then .ok (validatorMsg s usePath e)
    else
      match env.oidDocObj usePath with
      | none => .error "assert(pathDocObj) failed"
      | some pathDocObj =>
        let inList := env.inListEx pathDocObj
        match e.depObjects.find? (fun o => inList.contains o) with
        | some o => .ok ("cyclic reference to " ++ env.objName o)
        | none =>
          match buildGraph env (insertExprOnly s.expressions usePath e.copy) (-1) with
          | .error msg => .ok msg
          | .ok _ => .ok ""

/-! ### `setValue` (lines 368-441) -/

/-- The identity shortcut of `setValue` (line 377-379):
`it != expressions.end() && expr == it->second.expression`, where `==`
compares the shared-pointer identity of the expression objects. -/
def identicalGuard (expr : Option Expr) (it : Option ExpressionInfo) : Bool :=
  match expr, it with
  | some e, some info => info.expression.id == e.id
  | _, _ => false

/-- `PropertyExpressionEngine::setValue`: canonicalize, probe the target
property via `getPathValue`, return silently when the identical
expression object is already bound, validate a non-null expression before
any mutation, then install (or erase) the binding while withdrawing the
old back-links and registering the new ones, all inside an
`AtomicPropertyChange` scope, and emit `expressionChanged`. -/
def setValue (env : Env) (s : Engine) (path : Nat) (expr : Option Expr) (comment : String) :
    Except String (Engine × List Op) :=
  match canonicalPath env path with
  | .error e => .error e
  | .ok usePath =>
    match env.getProperty usePath with
    | none => .error "Path does not resolve to a property."
    | some pi =>
      if ¬ pi.pathValueOk then .error "getPathValue failed"
      else
        let it := lookupAL s.expressions usePath
        if identicalGuard expr it then
          .ok (s, [])
        else
          match expr with
          | some e =>
            match validateExpression env s usePath e with
            | .error msg => .error msg
            | .ok error =>
              if error.length > 0 then .error error
              else
                let removeOps := match env.container, it with
                  | some parent, some info =>
                    (info.expression.depObjects.filter (fun o => ¬ o == parent)).map
                      Op.removeBackLink
                  | _, _ => []
                let addOps := match env.container with
                  | some parent =>
                    (e.depObjects.filter (fun o => ¬ o == parent)).map Op.addBackLink
                  | none => []
                .ok ({ s with expressions := insertAL s.expressions usePath ⟨e, comment⟩ },
                  [Op.aboutToSet] ++ removeOps ++ addOps ++ [Op.changed usePath, Op.hasSet])
          | none =>
            let removeOps := match env.container, it with
              | some parent, some info =>
                (info.expression.depObjects.filter (fun o => ¬ o == parent)).map
                  Op.removeBackLink
              | _, _ => []
            .ok ({ s with expressions := eraseAL s.expressions usePath },
              [Op.aboutToSet] ++ removeOps ++ [Op.changed usePath, Op.hasSet])

/-! ### Evaluation order and `execute` (lines 514-596) -/

/-- One selection round of the modelled topological sort: the first
unprocessed vertex all of whose successors are already emitted. -/
def findReady (es : List (Nat × Nat)) (out : List Nat) (remaining : List Nat) : Option Nat :=
  remaining.find? (fun u =>
    ((es.filter (fun e => e.1 == u)).map (fun e => e.2)).all (fun w => out.contains w))

/-- Fuelled work loop for the modelled topological sort. -/
def topoAux (es : List (Nat × Nat)) : Nat → List Nat → List Nat → List Nat
  | 0, _, out => out
  | fuel + 1, remaining, out =>
    match findReady es out remaining with
    | none => out
    | some u => topoAux es fuel (remaining.erase u) (out ++ [u])

/-- Modelled from the spec: `boost::topological_sort` (an external
library the engine calls at line 524) writes the vertices of the graph so
that for every edge `(u, v)` the target `v` comes before the source `u`;
any such order is acceptable (spec §4.3).  Modelled as repeated selection
of a vertex whose successors have all been emitted.  Only the vertices
`0 .. n-1` of the constructed graph participate. -/
def topological_sort (n : Nat) (es : List (Nat × Nat)) : List Nat :=
  topoAux es n (List.range n) []

/-- `PropertyExpressionEngine::computeEvaluationOrder`: build the graph
over all current bindings, topologically sort it, and keep (in sorted
order) the vertices registered in the reverse node map, i.e. the output
paths. -/
def computeEvaluationOrder (env : Env) (exprs : ExpressionMap) (output : Int) :
    Except String (List Nat) :=
  match buildGraph env exprs output with
  | .error e => .error e
  | .ok (revNodes, n, es) =>
    .ok ((topological_sort n es).filterMap (fun i => lookupAL revNodes i))

/-- The evaluation loop of `execute` (lines 573-594): resolve each path,
require the target property to live in the engine's own container,
evaluate the bound expression and write the value through
`setPathValue`.  Returns the final property values and the `(path,
value)` writes in order.  (Dereferencing a missing store entry, which
would crash in C++, is modelled as an error.) -/
def executeLoop (env : Env) (s : Engine) :
    List Nat → (Nat → Int) → List (Nat × Int) → Except String ((Nat → Int) × List (Nat × Int))
  | [], vals, writes => .ok (vals, writes.reverse)
  | p :: rest, vals, writes =>
    match env.getProperty p with
    | none => .error "Path does not resolve to a property."
    | some pi =>
      if pi.container ≠ env.container then .error "Invalid property owner."
      else
        match lookupAL s.expressions p with
        | none => .error "null expression"
        | some info =>
          let v := info.expression.eval vals
          executeLoop env s rest (fun q => if q = p then v else vals q) ((p, v) :: writes)

/-- `PropertyExpressionEngine::execute`: require a `DocumentObject`
owner; if the engine is already running return `StdReturn` immediately;
otherwise set the running flag, compute the evaluation order and drive
the loop, clearing the flag on every exit path (the `resetter`).  The
result pairs the outcome (final values and writes on success) with the
engine state after the call. -/
def execute (env : Env) (s : Engine) (vals : Nat → Int) (output : Int) :
    Except String ((Nat → Int) × List (Nat × Int)) × Engine :=
  match env.container with
  | none => (.error "PropertyExpressionEngine must be owned by a DocumentObject.", s)
  | some _ =>
    if s.running then (.ok (vals, []), s)
    else
      let s1 := { s with running := true }
      match computeEvaluationOrder env s1.expressions output with
      | .error e => (.error e, { s1 with running := false })
      | .ok ord =>
        match executeLoop env s1 ord vals [] with
        | .error e => (.error e, { s1 with running := false })
        | .ok r => (.ok r, { s1 with running := false })

/-! ### Maintenance handlers (lines 603-640, 732-757, 789-801) -/

/-- `PropertyExpressionEngine::getDocumentObjectDeps`: the dependency
objects of all bindings, excluding the owner. -/
def getDocumentObjectDeps (env : Env) (s : Engine) : List Nat :=
  match env.container with
  | none => []
  | some owner =>
    s.expressions.foldl (fun acc v =>
      acc ++ v.2.expression.depObjects.filter (fun o => ¬ o == owner)) []

/-- `PropertyExpressionEngine::getPathsToDocumentObject`: all paths
reported by each expression's dependency grouping under the key `obj`
(no filtering on the property name here). -/
def getPathsToDocumentObject (env : Env) (s : Engine) (obj : Nat) : List Nat :=
  match env.container with
  | none => []
  | some owner =>
    if owner = obj then []
    else
      s.expressions.foldl (fun acc v =>
        match lookupAL v.2.expression.deps obj with
        | none => acc
        | some m => acc ++ m.foldl (fun a pr => a ++ pr.2) []) []

/-- `PropertyExpressionEngine::breakDependency`: compute the current
dependency set once, then for each listed object that is a dependency,
call `setValue(id, nullptr)` on every path returned by
`getPathsToDocumentObject` against the current state. -/
def breakDependency (env : Env) (s : Engine) (objs : List Nat) :
    Except String (Engine × List Op) :=
  let deps := getDocumentObjectDeps env s
  objs.foldlM (fun acc obj =>
    if deps.contains obj then
      (getPathsToDocumentObject env acc.1 obj).foldlM (fun acc2 id => do
        let r ← setValue env acc2.1 id none ""
        pure (r.1, acc2.2 ++ r.2)) acc
    else pure acc) (s, ([] : List Op))

/-- The store rebuild of `renameExpressions` (lines 741-749): every
binding whose key appears in the canonicalized rename map is rehoused
under the new key, the others keep theirs. -/
def renameFold (canonicalPaths : List (Nat × Nat)) (exprs : ExpressionMap) : ExpressionMap :=
  exprs.foldl (fun acc entry =>
    match lookupAL canonicalPaths entry.1 with
    | some newKey => insertAL acc newKey entry.2
    | none => insertAL acc entry.1 entry.2) []

/-- `PropertyExpressionEngine::renameExpressions`: canonicalize the keys
of the rename map, rebuild the store rehousing every binding whose key
appears in the map, and emit `changed` for every final key inside a
single `aboutToSetValue`/`hasSetValue` scope. -/
def renameExpressions (env : Env) (s : Engine) (paths : List (Nat × Nat)) :
    Except String (Engine × List Op) := do
  let canonicalPaths ← paths.foldlM (fun acc pr => do
      let c ← canonicalPath env pr.1
      pure (insertAL acc c pr.2)) ([] : List (Nat × Nat))
  let newExpressions := renameFold canonicalPaths s.expressions
  pure ({ s with expressions := newExpressions },
    [Op.aboutToSet] ++ newExpressions.map (fun e => Op.changed e.1) ++ [Op.hasSet])

/-! ### Serialization (lines 180-199, 334-340) -/

/-- `PropertyExpressionEngine::Restore`: read `count` `(path,
expression, comment)` elements (the XML reader and the two parsers are
external; the model receives the parsed entries) into the staging store
`restoredExpressions`, leaving the live store untouched. -/
def Restore (s : Engine) (count : Nat) (entries : List (Nat × Expr × String)) : Engine :=
  { s with restoredExpressions :=
      (entries.take count).foldl (fun acc t => insertAL acc t.1 ⟨t.2.1, t.2.2⟩) [] }

/-- The drain loop of `onDocumentRestored`: install each staged binding
through `setValue` in order (re-running validation and back-link
registration), inside one `AtomicPropertyChange` scope; a `setValue`
exception propagates and aborts the remaining installs. -/
def drainRestored (env : Env) (s : Engine) (staged : ExpressionMap) :
    Except String (Engine × List Op) := do
  let r ← staged.foldlM (fun (acc : Engine × List Op) entry => do
      let r ← setValue env acc.1 entry.1 (some entry.2.expression) entry.2.comment
      pure (r.1, acc.2 ++ r.2)) (s, ([Op.aboutToSet] : List Op))
  pure (r.1, r.2 ++ [Op.hasSet])

/-- `PropertyExpressionEngine::onDocumentRestored`: drain the staged
bindings into the live store through `setValue`. -/
def onDocumentRestored (env : Env) (s : Engine) : Except String (Engine × List Op) :=
  drainRestored env s s.restoredExpressions

/-! ### The dependency graph at the path level (specification side)

The claims speak about the graph whose nodes are canonical paths and
whose edges run from each bound output path to each canonical dependency
path of its expression (spec §3 "Dependency graph").  These definitions
build that graph directly from a binding store; acyclicity is the
nonexistence of a closed walk. -/

/-- The dependency paths of an expression that contribute edges: the
paths of entries of the `object -> property -> paths` grouping with a
non-empty property name, in traversal order. -/
def rawDeps (e : Expr) : List Nat :=
  e.deps.flatMap (fun d => d.2.flatMap (fun pr => if pr.1 = "" then [] else pr.2))

/-- The contributing dependency paths, canonicalized by the path
library. -/
def canonDeps (env : Env) (e : Expr) : List Nat :=
  (rawDeps e).map env.oidCanonical

/-- The path-level dependency edges of a binding store: one edge from
each bound path to each canonical dependency path of its expression. -/
def depEdges (env : Env) (exprs : ExpressionMap) : List (Nat × Nat) :=
  exprs.foldl (fun acc v => acc ++ (canonDeps env v.2.expression).map (fun c => (v.1, c))) []

/-- A walk of `k` edges along `es`, given by the vertex sequence `f`. -/
def WalkF (es : List (Nat × Nat)) (k : Nat) (f : Nat → Nat) : Prop :=
  ∀ i, i < k → (f i, f (i + 1)) ∈ es

/-- Acyclicity of an edge list: no closed walk of positive length. -/
def Acyclic (es : List (Nat × Nat)) : Prop :=
  ¬ ∃ k f, 0 < k ∧ f 0 = f k ∧ WalkF es k f

/-- Acyclicity of the path-level dependency graph of a binding store. -/
def AcyclicPaths (env : Env) (exprs : ExpressionMap) : Prop :=
  Acyclic (depEdges env exprs)

/-! ### Association-list lemmas -/

theorem lookupAL_nil {α : Type} (k : Nat) : lookupAL ([] : List (Nat × α)) k = none := rfl

theorem lookupAL_append_some {α : Type} {l : List (Nat × α)} {k : Nat} {v : α}
    (h : lookupAL l k = some v) (l' : List (Nat × α)) : lookupAL (l ++ l') k = some v := by
  unfold lookupAL at h ⊢
  rcases h' : l.find? (fun e => e.1 == k) with _ | e
  · simp [h'] at h
  · rw [List.find?_append, h']
    simpa [h'] using h

theorem lookupAL_append_none {α : Type} {l : List (Nat × α)} {k : Nat}
    (h : lookupAL l k = none) (l' : List (Nat × α)) :
    lookupAL (l ++ l') k = lookupAL l' k := by
  unfold lookupAL at h ⊢
  rcases h' : l.find? (fun e => e.1 == k) with _ | e
  · rw [List.find?_append, h']
    simp
  · simp [h'] at h

theorem lookupAL_singleton_same {α : Type} (k : Nat) (v : α) :
    lookupAL [(k, v)] k = some v := by
  simp [lookupAL]

theorem lookupAL_isSome_append {α : Type} (l l' : List (Nat × α)) (k : Nat) :
    (lookupAL (l ++ l') k).isSome = ((lookupAL l k).isSome || (lookupAL l' k).isSome) := by
  rcases h : lookupAL l k with _ | v
  · rw [lookupAL_append_none h]
    simp
  · rw [lookupAL_append_some h]
    simp

theorem lookupAL_singleton_isSome {α : Type} (k k' : Nat) (v : α) :
    (lookupAL [(k, v)] k').isSome = true ↔ k' = k := by
  constructor
  · intro h
    by_contra hne
    have : (k == k') = false := by
      simp
      omega
    simp [lookupAL, List.find?, this] at h
  · intro h
    subst h
    simp [lookupAL]

/-! ### Soundness of the cycle detector

`buildGraph` succeeds only when the depth-first search reports no back
edge; these lemmas show that in that case the edge list really admits no
closed walk. -/

theorem reachB_complete (es : List (Nat × Nat)) :
    ∀ fuel k f, 0 < k → k ≤ fuel → WalkF es k f →
      reachB es fuel (f 0) (f k) = true := by
  intro fuel
  induction fuel with
  | zero => intro k f hk hle _; omega
  | succ fuel ih =>
    intro k f hk hle hw
    have he : (f 0, f 1) ∈ es := hw 0 hk
    simp only [reachB, List.any_eq_true]
    refine ⟨f 1, ?_, ?_⟩
    · exact List.mem_map.mpr ⟨(f 0, f 1), List.mem_filter.mpr ⟨he, by simp⟩, rfl⟩
    · by_cases h1 : k = 1
      · subst h1
        simp
      · have h2 : 2 ≤ k := by omega
        have hrec : reachB es fuel (f 1) (f k) = true := by
          have := ih (k - 1) (fun i => f (i + 1)) (by omega) (by omega)
            (fun i hi => hw (i + 1) (by omega))
          have hk1 : k - 1 + 1 = k := by omega
          simpa [hk1] using this
        simp [hrec]

theorem walk_vertex_lt {es : List (Nat × Nat)} {n k : Nat} {f : Nat → Nat}
    (hb : ∀ e ∈ es, e.1 < n ∧ e.2 < n) (hw : WalkF es k f) :
    ∀ i, i < k → f i < n :=
  fun i hi => (hb _ (hw i hi)).1

theorem closed_walk_short {es : List (Nat × Nat)} {n : Nat}
    (hb : ∀ e ∈ es, e.1 < n ∧ e.2 < n) :
    ∀ k f, 0 < k → f 0 = f k → WalkF es k f →
      ∃ k' f', 0 < k' ∧ k' ≤ n ∧ f' 0 = f' k' ∧ WalkF es k' f' := by
  intro k
  induction k using Nat.strong_induction_on with
  | _ k ih =>
    intro f hk hf hw
    by_cases hkn : k ≤ n
    · exact ⟨k, f, hk, hkn, hf, hw⟩
    · have hnk : n < k := by omega
      have hmaps : ∀ i ∈ Finset.range (n + 1), f i ∈ Finset.range n := by
        intro i hi
        have : i < k := by
          have := Finset.mem_range.mp hi
          omega
        exact Finset.mem_range.mpr (walk_vertex_lt hb hw i this)
      have hcard : (Finset.range n).card < (Finset.range (n + 1)).card := by
        simp
      obtain ⟨a, ha, b, hb', hab, hfab⟩ :=
        Finset.exists_ne_map_eq_of_card_lt_of_maps_to hcard hmaps
      have ha' : a ≤ n := by
        have := Finset.mem_range.mp ha
        omega
      have hb'' : b ≤ n := by
        have := Finset.mem_range.mp hb'
        omega
      rcases Nat.lt_or_ge a b with hlt | hge
      · have hsmall : b - a < k := by omega
        refine ih (b - a) hsmall (fun i => f (a + i)) (by omega) ?_ ?_
        · have : a + (b - a) = b := by omega
          simpa [this] using hfab
        · intro i hi
          have h1 : a + i < k := by omega
          have h2 : a + i + 1 = a + (i + 1) := by omega
          have := hw (a + i) h1
          simpa [h2] using this
      · have hba : b < a := by omega
        have hsmall : a - b < k := by omega
        refine ih (a - b) hsmall (fun i => f (b + i)) (by omega) ?_ ?_
        · have : b + (a - b) = a := by omega
          simpa [this] using hfab.symm
        · intro i hi
          have h1 : b + i < k := by omega
          have h2 : b + i + 1 = b + (i + 1) := by omega
          have := hw (b + i) h1
          simpa [h2] using this

theorem cycleSrc_none_acyclic {es : List (Nat × Nat)} {n : Nat}
    (hb : ∀ e ∈ es, e.1 < n ∧ e.2 < n) (h : cycleSrc es n = none) : Acyclic es := by
  rintro ⟨k, f, hk, hf, hw⟩
  obtain ⟨k', f', hk', hk'n, hf', hw'⟩ := closed_walk_short hb k f hk hf hw
  have hv : f' 0 < n := walk_vertex_lt hb hw' 0 hk'
  rw [cycleSrc, List.find?_eq_none] at h
  apply h (f' 0) (List.mem_range.mpr hv)
  have := reachB_complete es n k' f' hk' hk'n hw'
  rw [← hf'] at this
  simpa using this

theorem acyclic_map {pes ies : List (Nat × Nat)} (N : Nat → Nat)
    (hN : ∀ p ∈ pes, (N p.1, N p.2) ∈ ies) (h : Acyclic ies) : Acyclic pes := by
  rintro ⟨k, f, hk, hf, hw⟩
  exact h ⟨k, fun i => N (f i), hk, by simp only [hf], fun i hi => hN _ (hw i hi)⟩

theorem acyclic_subset {es es' : List (Nat × Nat)}
    (hsub : ∀ x ∈ es, x ∈ es') (h : Acyclic es') : Acyclic es := by
  rintro ⟨k, f, hk, hf, hw⟩
  exact h ⟨k, f, hk, hf, fun i hi => hsub _ (hw i hi)⟩

theorem acyclic_nil : Acyclic [] := by
  rintro ⟨k, f, hk, _, hw⟩
  exact absurd (hw 0 hk) (by simp)

theorem le_graphSize : ∀ (es : List (Nat × Nat)) (init : Nat), init ≤ graphSize init es := by
  intro es
  induction es with
  | nil => intro init; simp [graphSize]
  | cons e es ih =>
    intro init
    have h := ih (max init (max (e.1 + 1) (e.2 + 1)))
    have hstep : graphSize init (e :: es) = graphSize (max init (max (e.1 + 1) (e.2 + 1))) es := rfl
    rw [hstep]
    exact le_trans (le_max_left _ _) h

theorem graphSize_bound : ∀ (es : List (Nat × Nat)) (init : Nat), ∀ e ∈ es,
    e.1 < graphSize init es ∧ e.2 < graphSize init es := by
  intro es
  induction es with
  | nil => intro init e he; simp at he
  | cons e0 es ih =>
    intro init e he
    have hstep : graphSize init (e0 :: es) = graphSize (max init (max (e0.1 + 1) (e0.2 + 1))) es := rfl
    rcases List.mem_cons.mp he with heq | hmem
    · subst heq
      have h := le_graphSize es (max init (max (e.1 + 1) (e.2 + 1)))
      constructor
      · rw [hstep]; omega
      · rw [hstep]; omega
    · rw [hstep]
      exact ih _ e hmem

/-! ### Characterization of the graph builder -/

theorem inner_fold_eq (g : GraphState → Nat → GraphState) (l : List (String × List Nat))
    (acc : GraphState) :
    l.foldl (fun acc2 pr => if pr.1 = "" then acc2 else pr.2.foldl g acc2) acc
      = (l.flatMap (fun pr => if pr.1 = "" then [] else pr.2)).foldl g acc := by
  induction l generalizing acc with
  | nil => rfl
  | cons pr l ih =>
    simp only [List.foldl_cons, List.flatMap_cons, List.foldl_append]
    by_cases h : pr.1 = "" <;> simp [h, ih]

theorem buildGraphStructures_flat (env : Env) (path : Nat) (e : Expr) (st : GraphState) :
    buildGraphStructures env path e st
      = (rawDeps e).foldl (addDep env path) (insertOutputNode path st) := by
  unfold buildGraphStructures rawDeps
  generalize insertOutputNode path st = st0
  induction e.deps generalizing st0 with
  | nil => rfl
  | cons d ds ih =>
    simp only [List.foldl_cons, List.flatMap_cons, List.foldl_append]
    rw [inner_fold_eq, ih]

theorem addDep_nodes_mono {env : Env} {path : Nat} {st : GraphState} {oid q i : Nat}
    (h : lookupAL st.nodes q = some i) :
    lookupAL (addDep env path st oid).nodes q = some i := by
  unfold addDep
  rcases hc : lookupAL st.nodes (env.oidCanonical oid) with _ | j
  · simpa [hc] using lookupAL_append_some h _
  · simpa [hc] using h

theorem addDep_lookup_canon (env : Env) (path : Nat) (st : GraphState) (oid : Nat) :
    ∃ j, lookupAL (addDep env path st oid).nodes (env.oidCanonical oid) = some j := by
  unfold addDep
  rcases hc : lookupAL st.nodes (env.oidCanonical oid) with _ | j
  · refine ⟨st.nodes.length, ?_⟩
    simp only [hc]
    exact (lookupAL_append_none hc _).trans (lookupAL_singleton_same _ _)
  · exact ⟨j, by simp only [hc]⟩

theorem addDep_isSome (env : Env) (path : Nat) (st : GraphState) (oid q : Nat) :
    (lookupAL (addDep env path st oid).nodes q).isSome = true
      ↔ (lookupAL st.nodes q).isSome = true ∨ q = env.oidCanonical oid := by
  unfold addDep
  rcases hc : lookupAL st.nodes (env.oidCanonical oid) with _ | j
  · simp only [hc]
    rw [lookupAL_isSome_append]
    simp [lookupAL_singleton_isSome]
  · simp only [hc]
    constructor
    · intro h; exact Or.inl h
    · rintro (h | h)
      · exact h
      · subst h; simp [hc]

theorem addDep_edges (env : Env) (path : Nat) (st : GraphState) (oid : Nat) :
    (addDep env path st oid).edges = st.edges ++
      [((lookupAL (addDep env path st oid).nodes path).getD 0,
        (lookupAL (addDep env path st oid).nodes (env.oidCanonical oid)).getD 0)] := rfl

theorem addDep_revNodes (env : Env) (path : Nat) (st : GraphState) (oid : Nat) :
    (addDep env path st oid).revNodes = st.revNodes := rfl

theorem foldAD_main (env : Env) (path : Nat) :
    ∀ (l : List Nat) (st : GraphState) (ip : Nat),
      lookupAL st.nodes path = some ip →
      (∀ q i, lookupAL st.nodes q = some i →
        lookupAL (l.foldl (addDep env path) st).nodes q = some i) ∧
      (l.foldl (addDep env path) st).edges = st.edges ++
        l.map (fun oid =>
          (ip, (lookupAL (l.foldl (addDep env path) st).nodes (env.oidCanonical oid)).getD 0)) ∧
      (∀ q, (lookupAL (l.foldl (addDep env path) st).nodes q).isSome = true
        ↔ (lookupAL st.nodes q).isSome = true ∨ q ∈ l.map env.oidCanonical) ∧
      (l.foldl (addDep env path) st).revNodes = st.revNodes := by
  intro l
  induction l with
  | nil =>
    intro st ip hip
    refine ⟨fun q i h => h, by simp, fun q => by simp, rfl⟩
  | cons oid rest ih =>
    intro st ip hip
    have hip2 : lookupAL (addDep env path st oid).nodes path = some ip :=
      addDep_nodes_mono hip
    obtain ⟨jc, hjc⟩ := addDep_lookup_canon env path st oid
    obtain ⟨mono, hedges, hsome, hrev⟩ := ih (addDep env path st oid) ip hip2
    have hjcfin : lookupAL (rest.foldl (addDep env path) (addDep env path st oid)).nodes
        (env.oidCanonical oid) = some jc := mono _ _ hjc
    refine ⟨fun q i h => mono q i (addDep_nodes_mono h), ?hedg, ?hsom, ?hrv⟩
    case hedg =>
      simp only [List.foldl_cons] at hedges ⊢
      rw [hedges, addDep_edges]
      simp only [List.map_cons, hjcfin]
      have hipD : (lookupAL (addDep env path st oid).nodes path).getD 0 = ip := by
        rw [hip2]; rfl
      have hjcD : (lookupAL (addDep env path st oid).nodes (env.oidCanonical oid)).getD 0
          = jc := by rw [hjc]; rfl
      rw [hipD, hjcD, List.append_assoc]
      rfl
    case hsom =>
      intro q
      simp only [List.foldl_cons]
      rw [hsome q, addDep_isSome]
      simp [or_assoc]
    case hrv =>
      simp only [List.foldl_cons]
      exact hrev.trans (addDep_revNodes env path st oid)

theorem insertOutputNode_lookup_path (path : Nat) (st : GraphState) :
    ∃ ip, lookupAL (insertOutputNode path st).nodes path = some ip := by
  unfold insertOutputNode
  rcases hc : lookupAL st.nodes path with _ | i
  · refine ⟨st.nodes.length, ?_⟩
    simpa using (lookupAL_append_none hc _).trans (lookupAL_singleton_same _ _)
  · exact ⟨i, by simpa using hc⟩

theorem insertOutputNode_nodes_mono {path : Nat} {st : GraphState} {q i : Nat}
    (h : lookupAL st.nodes q = some i) :
    lookupAL (insertOutputNode path st).nodes q = some i := by
  unfold insertOutputNode
  rcases hc : lookupAL st.nodes path with _ | j
  · simpa using lookupAL_append_some h _
  · simpa using h

theorem insertOutputNode_isSome (path : Nat) (st : GraphState) (q : Nat) :
    (lookupAL (insertOutputNode path st).nodes q).isSome = true
      ↔ (lookupAL st.nodes q).isSome = true ∨ q = path := by
  unfold insertOutputNode
  rcases hc : lookupAL st.nodes path with _ | j
  · simp only [hc]
    rw [lookupAL_isSome_append]
    simp [lookupAL_singleton_isSome]
  · simp only [hc]
    constructor
    · intro h; exact Or.inl h
    · rintro (h | h)
      · exact h
      · subst h; simp [hc]

theorem insertOutputNode_edges (path : Nat) (st : GraphState) :
    (insertOutputNode path st).edges = st.edges := by
  unfold insertOutputNode
  rcases hc : lookupAL st.nodes path with _ | j <;> simp

theorem bgs_main (env : Env) (path : Nat) (e : Expr) (st : GraphState) :
    ∃ ip, lookupAL (buildGraphStructures env path e st).nodes path = some ip ∧
      (buildGraphStructures env path e st).edges = st.edges ++
        (canonDeps env e).map (fun c =>
          (ip, (lookupAL (buildGraphStructures env path e st).nodes c).getD 0)) := by
  rw [buildGraphStructures_flat]
  obtain ⟨ip, hip⟩ := insertOutputNode_lookup_path path st
  obtain ⟨mono, hedges, hsome, hrev⟩ := foldAD_main env path (rawDeps e) _ ip hip
  refine ⟨ip, mono _ _ hip, ?_⟩
  rw [hedges, insertOutputNode_edges]
  unfold canonDeps
  rw [List.map_map]
  rfl

theorem bgs_isSome (env : Env) (path : Nat) (e : Expr) (st : GraphState) (q : Nat) :
    (lookupAL (buildGraphStructures env path e st).nodes q).isSome = true
      ↔ (lookupAL st.nodes q).isSome = true ∨ q = path ∨ q ∈ canonDeps env e := by
  rw [buildGraphStructures_flat]
  obtain ⟨ip, hip⟩ := insertOutputNode_lookup_path path st
  obtain ⟨mono, hedges, hsome, hrev⟩ := foldAD_main env path (rawDeps e) _ ip hip
  rw [hsome q, insertOutputNode_isSome]
  unfold canonDeps
  rw [or_assoc]

theorem bgs_nodes_mono {env : Env} {path : Nat} {e : Expr} {st : GraphState} {q i : Nat}
    (h : lookupAL st.nodes q = some i) :
    lookupAL (buildGraphStructures env path e st).nodes q = some i := by
  rw [buildGraphStructures_flat]
  obtain ⟨ip, hip⟩ := insertOutputNode_lookup_path path st
  obtain ⟨mono, _, _, _⟩ := foldAD_main env path (rawDeps e) _ ip hip
  exact mono _ _ (insertOutputNode_nodes_mono h)

theorem bgs_edges_mem {env : Env} {path : Nat} {e : Expr} {st : GraphState} {x : Nat × Nat}
    (h : x ∈ st.edges) : x ∈ (buildGraphStructures env path e st).edges := by
  obtain ⟨ip, _, hedges⟩ := bgs_main env path e st
  rw [hedges]
  exact List.mem_append_left _ h

theorem bgs_canon_lookup (env : Env) (path : Nat) (e : Expr) (st : GraphState) :
    ∀ c ∈ canonDeps env e, ∃ j,
      lookupAL (buildGraphStructures env path e st).nodes c = some j := by
  intro c hc
  have h := (bgs_isSome env path e st c).mpr (Or.inr (Or.inr hc))
  rcases hj : lookupAL (buildGraphStructures env path e st).nodes c with _ | j
  · rw [hj] at h; simp at h
  · exact ⟨j, rfl⟩

theorem bgs_dep_edge (env : Env) (path : Nat) (e : Expr) (st : GraphState) :
    ∀ c ∈ canonDeps env e, ∃ i j,
      lookupAL (buildGraphStructures env path e st).nodes path = some i ∧
      lookupAL (buildGraphStructures env path e st).nodes c = some j ∧
      (i, j) ∈ (buildGraphStructures env path e st).edges := by
  intro c hc
  obtain ⟨ip, hip, hedges⟩ := bgs_main env path e st
  obtain ⟨j, hj⟩ := bgs_canon_lookup env path e st c hc
  refine ⟨ip, j, hip, hj, ?_⟩
  rw [hedges]
  apply List.mem_append_right
  have : (ip, j) = (ip, (lookupAL (buildGraphStructures env path e st).nodes c).getD 0) := by
    rw [hj]; rfl
  rw [this]
  exact List.mem_map_of_mem _ hc

/-- The store walk of `buildGraph` restricted to `output = -1` (no
filtering). -/
def storeFold (env : Env) (exprs : ExpressionMap) (st : GraphState) : GraphState :=
  exprs.foldl (fun st v => buildGraphStructures env v.1 v.2.expression st) st

theorem buildGraphCore_neg (env : Env) (exprs : ExpressionMap) :
    buildGraphCore env exprs (-1) = .ok (storeFold env exprs ⟨[], [], []⟩) := by
  unfold buildGraphCore storeFold
  generalize (⟨[], [], []⟩ : GraphState) = st
  induction exprs generalizing st with
  | nil => rfl
  | cons v l ih =>
    simp only [List.foldlM_cons, List.foldl_cons]
    have hneg : ((-1 : Int) ≥ 0) = False := by norm_num
    simp only [hneg, if_false]
    exact ih _

theorem storeFold_nodes_mono {env : Env} {q i : Nat} :
    ∀ (exprs : ExpressionMap) (st : GraphState), lookupAL st.nodes q = some i →
      lookupAL (storeFold env exprs st).nodes q = some i := by
  intro exprs
  induction exprs with
  | nil => intro st h; exact h
  | cons v l ih =>
    intro st h
    exact ih _ (bgs_nodes_mono h)

theorem storeFold_edges_mem {env : Env} {x : Nat × Nat} :
    ∀ (exprs : ExpressionMap) (st : GraphState), x ∈ st.edges →
      x ∈ (storeFold env exprs st).edges := by
  intro exprs
  induction exprs with
  | nil => intro st h; exact h
  | cons v l ih =>
    intro st h
    exact ih _ (bgs_edges_mem h)

theorem store_graph_invariant (env : Env) :
    ∀ (exprs : ExpressionMap) (st : GraphState) (p : Nat) (info : ExpressionInfo),
      (p, info) ∈ exprs → ∀ c ∈ canonDeps env info.expression,
      ∃ i j, lookupAL (storeFold env exprs st).nodes p = some i ∧
        lookupAL (storeFold env exprs st).nodes c = some j ∧
        (i, j) ∈ (storeFold env exprs st).edges := by
  intro exprs
  induction exprs with
  | nil => intro st p info h; simp at h
  | cons v l ih =>
    intro st p info hmem c hc
    rcases List.mem_cons.mp hmem with heq | hmem'
    · have hv : v.1 = p ∧ v.2 = info := by
        rw [← heq]
        exact ⟨rfl, rfl⟩
      obtain ⟨i, j, hi, hj, he⟩ := bgs_dep_edge env v.1 v.2.expression st c
        (by rw [hv.2]; exact hc)
      refine ⟨i, j, ?_, ?_, ?_⟩
      · rw [← hv.1]
        exact storeFold_nodes_mono l _ hi
      · exact storeFold_nodes_mono l _ hj
      · exact storeFold_edges_mem l _ he
    · exact ih _ p info hmem' c hc

theorem mem_foldl_append {α β : Type} (g : β → List α) :
    ∀ (l : List β) (acc : List α) (x : α),
      x ∈ l.foldl (fun a b => a ++ g b) acc ↔ x ∈ acc ∨ ∃ b ∈ l, x ∈ g b := by
  intro l
  induction l with
  | nil => intro acc x; simp
  | cons b l ih =>
    intro acc x
    simp only [List.foldl_cons]
    rw [ih]
    simp only [List.mem_append, List.mem_cons]
    constructor
    · rintro ((h | h) | ⟨b', hb', h⟩)
      · exact Or.inl h
      · exact Or.inr ⟨b, Or.inl rfl, h⟩
      · exact Or.inr ⟨b', Or.inr hb', h⟩
    · rintro (h | ⟨b', hb' | hb', h⟩)
      · exact Or.inl (Or.inl h)
      · subst hb'; exact Or.inl (Or.inr h)
      · exact Or.inr ⟨b', hb', h⟩

theorem mem_depEdges {env : Env} {exprs : ExpressionMap} {x : Nat × Nat}
    (h : x ∈ depEdges env exprs) :
    ∃ p info c, (p, info) ∈ exprs ∧ c ∈ canonDeps env info.expression ∧ x = (p, c) := by
  unfold depEdges at h
  rw [mem_foldl_append] at h
  rcases h with h | ⟨v, hv, hx⟩
  · simp at h
  · obtain ⟨c, hc, hxc⟩ := List.mem_map.mp hx
    exact ⟨v.1, v.2, c, by simpa using hv, hc, hxc.symm⟩

theorem buildGraph_neg_eq (env : Env) (exprs : ExpressionMap) :
    buildGraph env exprs (-1) =
      match cycleSrc (storeFold env exprs ⟨[], [], []⟩).edges
          (graphSize (storeFold env exprs ⟨[], [], []⟩).revNodes.length
            (storeFold env exprs ⟨[], [], []⟩).edges) with
      | some src => .error ((((lookupAL (storeFold env exprs ⟨[], [], []⟩).revNodes src).map
          env.pathToString).getD "") ++ " reference creates a cyclic dependency.")
      | none => .ok ((storeFold env exprs ⟨[], [], []⟩).revNodes,
          graphSize (storeFold env exprs ⟨[], [], []⟩).revNodes.length
            (storeFold env exprs ⟨[], [], []⟩).edges,
          (storeFold env exprs ⟨[], [], []⟩).edges) := by
  unfold buildGraph
  rw [buildGraphCore_neg]

/-- Success of `buildGraph` over a binding store (with no output filter)
implies path-level acyclicity of the store's dependency graph. -/
theorem buildGraph_ok_acyclic {env : Env} {exprs : ExpressionMap}
    {r : List (Nat × Nat) × Nat × List (Nat × Nat)}
    (h : buildGraph env exprs (-1) = .ok r) : AcyclicPaths env exprs := by
  rw [buildGraph_neg_eq] at h
  rcases hcs : cycleSrc (storeFold env exprs ⟨[], [], []⟩).edges
      (graphSize (storeFold env exprs ⟨[], [], []⟩).revNodes.length
        (storeFold env exprs ⟨[], [], []⟩).edges) with _ | src
  · have hb : ∀ e ∈ (storeFold env exprs ⟨[], [], []⟩).edges,
        e.1 < graphSize (storeFold env exprs ⟨[], [], []⟩).revNodes.length
          (storeFold env exprs ⟨[], [], []⟩).edges ∧
        e.2 < graphSize (storeFold env exprs ⟨[], [], []⟩).revNodes.length
          (storeFold env exprs ⟨[], [], []⟩).edges :=
      fun e he => graphSize_bound _ _ e he
    have hacy : Acyclic (storeFold env exprs ⟨[], [], []⟩).edges :=
      cycleSrc_none_acyclic hb hcs
    unfold AcyclicPaths
    apply acyclic_map
      (fun q => (lookupAL (storeFold env exprs ⟨[], [], []⟩).nodes q).getD 0) ?_ hacy
    intro pr hpr
    obtain ⟨p, info, c, hmem, hc, hx⟩ := mem_depEdges hpr
    obtain ⟨i, j, hi, hj, he⟩ := store_graph_invariant env exprs ⟨[], [], []⟩ p info hmem c hc
    subst hx
    simp only [hi, hj, Option.getD_some]
    exact he
  · rw [hcs] at h
    simp at h

/-! ### Analysis of `validateExpression` and `setValue` -/

theorem buildGraph_neg_error_nonempty {env : Env} {exprs : ExpressionMap} {msg : String}
    (h : buildGraph env exprs (-1) = .error msg) : msg.length > 0 := by
  rw [buildGraph_neg_eq] at h
  rcases hcs : cycleSrc (storeFold env exprs ⟨[], [], []⟩).edges
      (graphSize (storeFold env exprs ⟨[], [], []⟩).revNodes.length
        (storeFold env exprs ⟨[], [], []⟩).edges) with _ | src
  · rw [hcs] at h
    simp at h
  · rw [hcs] at h
    have hmsg : msg = (((lookupAL (storeFold env exprs ⟨[], [], []⟩).revNodes src).map
        env.pathToString).getD "") ++ " reference creates a cyclic dependency." := by
      cases h
      rfl
    rw [hmsg, String.length_append]
    have : (" reference creates a cyclic dependency." : String).length > 0 := by decide
    omega

theorem validateExpression_canon (env : Env) (s : Engine) (path up : Nat) (e : Expr)
    (hcp : canonicalPath env path = .ok up) (hidem : canonicalPath env up = .ok up) :
    validateExpression env s path e = validateExpression env s up e := by
  unfold validateExpression
  rw [hcp, hidem]

theorem validateExpression_unfold (env : Env) (s : Engine) (path up : Nat) (e : Expr)
    (hcp : canonicalPath env path = .ok up) :
    validateExpression env s path e =
      if (validatorMsg s up e).length > 0 then .ok (validatorMsg s up e)
      else
        match env.oidDocObj up with
        | none => .error "assert(pathDocObj) failed"
        | some pathDocObj =>
          match e.depObjects.find? (fun o => (env.inListEx pathDocObj).contains o) with
          | some o => .ok ("cyclic reference to " ++ env.objName o)
          | none =>
            match buildGraph env (insertExprOnly s.expressions up e.copy) (-1) with
            | .error msg => .ok msg
            | .ok _ => .ok "" := by
  unfold validateExpression
  rw [hcp]

theorem validateExpression_ok_empty {env : Env} {s : Engine} {up : Nat} {e : Expr}
    {error : String} (hidem : canonicalPath env up = .ok up)
    (h : validateExpression env s up e = .ok error) (hlen : ¬ error.length > 0) :
    ∃ g, buildGraph env (insertExprOnly s.expressions up e.copy) (-1) = .ok g := by
  rw [validateExpression_unfold env s up up e hidem] at h
  by_cases hv : (validatorMsg s up e).length > 0
  · rw [if_pos hv] at h
    cases h
    exact absurd hv hlen
  · rw [if_neg hv] at h
    split at h
    · simp at h
    · split at h
      · cases h
        rw [String.length_append] at hlen
        have h20 : ("cyclic reference to " : String).length > 0 := by decide
        omega
      · split at h
        next msg heq =>
          cases h
          exact absurd (buildGraph_neg_error_nonempty heq) hlen
        next g heq =>
          exact ⟨g, heq⟩

/-- Projection of a store entry to the data the dependency graph can
see: the key and the dependency grouping of the expression. -/
def projDeps (v : Nat × ExpressionInfo) : Nat × List (Nat × List (String × List Nat)) :=
  (v.1, v.2.expression.deps)

theorem canonDeps_proj {env : Env} {e1 e2 : Expr} (h : e1.deps = e2.deps) :
    canonDeps env e1 = canonDeps env e2 := by
  unfold canonDeps rawDeps
  rw [h]

theorem depEdges_congr {env : Env} :
    ∀ {e1 e2 : ExpressionMap}, e1.map projDeps = e2.map projDeps →
      depEdges env e1 = depEdges env e2 := by
  have aux : ∀ (e1 e2 : ExpressionMap), e1.map projDeps = e2.map projDeps →
      ∀ acc, e1.foldl (fun acc v => acc ++ (canonDeps env v.2.expression).map
          (fun c => (v.1, c))) acc
        = e2.foldl (fun acc v => acc ++ (canonDeps env v.2.expression).map
          (fun c => (v.1, c))) acc := by
    intro e1
    induction e1 with
    | nil =>
      intro e2 h acc
      have : e2 = [] := by
        cases e2 with
        | nil => rfl
        | cons v r => simp at h
      rw [this]
    | cons v1 r1 ih =>
      intro e2 h acc
      cases e2 with
      | nil => simp at h
      | cons v2 r2 =>
        simp only [List.map_cons, List.cons.injEq] at h
        have hkey : v1.1 = v2.1 := by
          have := congrArg Prod.fst h.1
          simpa [projDeps] using this
        have hdeps : v1.2.expression.deps = v2.2.expression.deps := by
          have := congrArg Prod.snd h.1
          simpa [projDeps] using this
        simp only [List.foldl_cons]
        rw [ih r2 h.2, hkey, canonDeps_proj hdeps]
  intro e1 e2 h
  exact aux e1 e2 h []

theorem projDeps_insert (exprs : ExpressionMap) (k : Nat) (e : Expr) (c : String) :
    (insertAL exprs k ⟨e, c⟩).map projDeps = (insertExprOnly exprs k e).map projDeps := by
  unfold insertAL insertExprOnly
  rcases h : lookupAL exprs k with _ | old
  · simp [projDeps]
  · simp only [List.map_map]
    apply List.map_congr_left
    intro v _
    by_cases hv : v.1 = k
    · simp [projDeps, hv]
    · simp [projDeps, hv]

theorem depEdges_intro {env : Env} {exprs : ExpressionMap} {p : Nat} {info : ExpressionInfo}
    {c : Nat} (hm : (p, info) ∈ exprs) (hc : c ∈ canonDeps env info.expression) :
    (p, c) ∈ depEdges env exprs := by
  unfold depEdges
  rw [mem_foldl_append]
  exact Or.inr ⟨(p, info), hm, List.mem_map_of_mem _ hc⟩

theorem depEdges_erase_sub (env : Env) (exprs : ExpressionMap) (k : Nat) :
    ∀ x ∈ depEdges env (eraseAL exprs k), x ∈ depEdges env exprs := by
  intro x hx
  obtain ⟨p, info, c, hm, hc, hxeq⟩ := mem_depEdges hx
  subst hxeq
  exact depEdges_intro (List.mem_of_mem_filter hm) hc

theorem setValue_unfold (env : Env) (s : Engine) (path up : Nat) (expr : Option Expr)
    (comment : String) (hcp : canonicalPath env path = .ok up) :
    setValue env s path expr comment =
      match env.getProperty up with
      | none => .error "Path does not resolve to a property."
      | some pi =>
        if ¬ pi.pathValueOk then .error "getPathValue failed"
        else
          if identicalGuard expr (lookupAL s.expressions up) then
            .ok (s, [])
          else
            match expr with
            | some e =>
              match validateExpression env s up e with
              | .error msg => .error msg
              | .ok error =>
                if error.length > 0 then .error error
                else
                  .ok ({ s with expressions := insertAL s.expressions up ⟨e, comment⟩ },
                    [Op.aboutToSet] ++
                    (match env.container, lookupAL s.expressions up with
                      | some parent, some info =>
                        (info.expression.depObjects.filter (fun o => ¬ o == parent)).map
                          Op.removeBackLink
                      | _, _ => []) ++
                    (match env.container with
                      | some parent =>
                        (e.depObjects.filter (fun o => ¬ o == parent)).map Op.addBackLink
                      | none => []) ++ [Op.changed up, Op.hasSet])
            | none =>
              .ok ({ s with expressions := eraseAL s.expressions up },
                [Op.aboutToSet] ++
                (match env.container, lookupAL s.expressions up with
                  | some parent, some info =>
                    (info.expression.depObjects.filter (fun o => ¬ o == parent)).map
                      Op.removeBackLink
                  | _, _ => []) ++ [Op.changed up, Op.hasSet]) := by
  unfold setValue
  rw [hcp]

theorem setValue_unfold_err (env : Env) (s : Engine) (path : Nat) (msg : String)
    (expr : Option Expr) (comment : String) (hcp : canonicalPath env path = .error msg) :
    setValue env s path expr comment = .error msg := by
  unfold setValue
  rw [hcp]

theorem setValue_some_ok {env : Env} {s : Engine} {path : Nat} {e : Expr} {comment : String}
    {r : Engine × List Op}
    (hidem : ∀ p q, canonicalPath env p = .ok q → canonicalPath env q = .ok q)
    (h : setValue env s path (some e) comment = .ok r)
    (hguard : ∀ up info, canonicalPath env path = .ok up →
      lookupAL s.expressions up = some info → info.expression.id ≠ e.id) :
    ∃ up, canonicalPath env path = .ok up ∧
      r.1.expressions = insertAL s.expressions up ⟨e, comment⟩ ∧
      ∃ g, buildGraph env (insertExprOnly s.expressions up e.copy) (-1) = .ok g := by
  rcases hcp : canonicalPath env path with msg | up
  · rw [setValue_unfold_err env s path msg _ _ hcp] at h
    simp at h
  · rw [setValue_unfold env s path up _ _ hcp] at h
    split at h
    next => simp at h
    next pi hpi =>
      split at h
      next => simp at h
      next hpv =>
        split at h
        next hguardb =>
          rcases hl : lookupAL s.expressions up with _ | info
          · rw [hl] at hguardb
            simp [identicalGuard] at hguardb
          · rw [hl] at hguardb
            have hb : (info.expression.id == e.id) = true := hguardb
            exact absurd (eq_of_beq hb) (hguard up info hcp hl)
        next hguardb =>
          split at h
          next e2 heq2 =>
            cases heq2
            split at h
            next msg hval => simp at h
            next error hval =>
              split at h
              next => simp at h
              next hlen =>
                refine ⟨up, rfl, ?_, ?_⟩
                · cases h
                  rfl
                · exact validateExpression_ok_empty (hidem path up hcp) hval hlen
          next heq2 => exact Option.noConfusion heq2

theorem setValue_none_ok {env : Env} {s : Engine} {path : Nat} {comment : String}
    {r : Engine × List Op} (h : setValue env s path none comment = .ok r) :
    ∃ up, canonicalPath env path = .ok up ∧
      r.1.expressions = eraseAL s.expressions up := by
  rcases hcp : canonicalPath env path with msg | up
  · rw [setValue_unfold_err env s path msg _ _ hcp] at h
    simp at h
  · rw [setValue_unfold env s path up _ _ hcp] at h
    split at h
    next => simp at h
    next pi hpi =>
      split at h
      next => simp at h
      next hpv =>
        split at h
        next hguardb => simp [identicalGuard] at hguardb
        next hguardb =>
          split at h
          next e2 heq2 => exact Option.noConfusion heq2
          next heq2 =>
            refine ⟨up, rfl, ?_⟩
            cases h
            rfl

theorem setValue_some_guard {env : Env} {s : Engine} {path : Nat} {e : Expr}
    {comment : String} {r : Engine × List Op} {up : Nat} {info : ExpressionInfo}
    (hcp : canonicalPath env path = .ok up) (hl : lookupAL s.expressions up = some info)
    (hid : info.expression.id = e.id) (h : setValue env s path (some e) comment = .ok r) :
    r = (s, []) := by
  rw [setValue_unfold env s path up _ _ hcp] at h
  split at h
  next => simp at h
  next pi hpi =>
    split at h
    next => simp at h
    next hpv =>
      split at h
      next hguardb =>
        cases h
        rfl
      next hguardb =>
        rw [hl] at hguardb
        exact absurd (by simp [identicalGuard, hid]) hguardb

/-- C1: bindings reached through successful `setValue` calls have an
acyclic dependency graph.  Conjunct 1: a successful `setValue` (with any
expression, including removal) preserves path-level acyclicity of the
store.  Conjunct 2: a successful `setValue` of a non-null expression
that is not the identically-bound one yields an acyclic store outright,
so an expression whose installation would create a cycle can never be
accepted.  The hypothesis `hidem` is the spec's guarantee (§3) that path
canonicalization is idempotent. -/
theorem c1_setValue_acyclic (env : Env) (s : Engine) (path : Nat) (oe : Option Expr)
    (comment : String) (r : Engine × List Op)
    (hidem : ∀ p q, canonicalPath env p = .ok q → canonicalPath env q = .ok q)
    (h : setValue env s path oe comment = .ok r) :
    (AcyclicPaths env s.expressions → AcyclicPaths env r.1.expressions) ∧
    (∀ e, oe = some e →
      (∀ up info, canonicalPath env path = .ok up →
        lookupAL s.expressions up = some info → info.expression.id ≠ e.id) →
      AcyclicPaths env r.1.expressions) := by
  have hsome : ∀ e, oe = some e →
      (∀ up info, canonicalPath env path = .ok up →
        lookupAL s.expressions up = some info → info.expression.id ≠ e.id) →
      AcyclicPaths env r.1.expressions := by
    intro e hoe hguard
    subst hoe
    obtain ⟨up, hcp, hexp, g, hbg⟩ := setValue_some_ok hidem h hguard
    have hA : AcyclicPaths env (insertExprOnly s.expressions up (Expr.copy e)) :=
      buildGraph_ok_acyclic hbg
    have hcopy : Expr.copy e = e := rfl
    rw [hcopy] at hA
    rw [hexp]
    unfold AcyclicPaths at hA ⊢
    rw [depEdges_congr (projDeps_insert s.expressions up e comment)]
    exact hA
  refine ⟨?_, hsome⟩
  intro hac
  cases oe with
  | none =>
    obtain ⟨up, hcp, hexp⟩ := setValue_none_ok h
    rw [hexp]
    unfold AcyclicPaths at hac ⊢
    exact acyclic_subset (depEdges_erase_sub env s.expressions up) hac
  | some e =>
    by_cases hg : ∀ up info, canonicalPath env path = .ok up →
        lookupAL s.expressions up = some info → info.expression.id ≠ e.id
    · exact hsome e rfl hg
    · push_neg at hg
      obtain ⟨up, info, hcp, hl, hid⟩ := hg
      have := setValue_some_guard hcp hl hid h
      rw [this]
      exact hac

/-- A concrete environment: the engine lives in document object `1`, the
single path `7` resolves to an ordinary property of that object, and
path-library canonicalization is the identity. -/
def env1 : Env where
  container := some 1
  getProperty := fun p => if p = 7 then some ⟨some 1, 0, false, false, true⟩ else none
  oidCanonical := fun p => p
  oidDocObj := fun _ => some 1
  inListEx := fun _ => []
  objName := fun _ => "obj"
  pathToString := fun _ => "p"
  resolveErrorString := fun _ => "path not found"

/-- An expression with no dependencies. -/
def e0 : Expr := ⟨1, [], [], fun _ => 0⟩

/-- An empty engine. -/
def s1 : Engine := ⟨[], [], false, none⟩

theorem env1_idem : ∀ p q, canonicalPath env1 p = .ok q → canonicalPath env1 q = .ok q := by
  intro p q h
  by_cases hp : p = 7
  · subst hp
    have h7 : canonicalPath env1 7 = .ok 7 := rfl
    rw [h7] at h
    cases h
    exact h7
  · have : canonicalPath env1 p = .error "path not found" := by
      unfold canonicalPath env1
      simp [hp]
    rw [this] at h
    exact Except.noConfusion h

theorem c1_setValue_acyclic_witness :
    setValue env1 s1 7 (some e0) "c" =
      .ok (⟨[(7, ⟨e0, "c"⟩)], [], false, none⟩, [Op.aboutToSet, Op.changed 7, Op.hasSet]) ∧
    AcyclicPaths env1 ([(7, ⟨e0, "c"⟩)] : ExpressionMap) := by
  have hset : setValue env1 s1 7 (some e0) "c" =
      .ok (⟨[(7, ⟨e0, "c"⟩)], [], false, none⟩, [Op.aboutToSet, Op.changed 7, Op.hasSet]) := rfl
  refine ⟨hset, ?_⟩
  have h := (c1_setValue_acyclic env1 s1 7 (some e0) "c" _ env1_idem hset).2 e0 rfl
    (by
      intro up info _ hl
      simp [lookupAL, s1] at hl)
  exact h

theorem setValue_unfold2 (env : Env) (s : Engine) (path up : Nat) (e : Expr)
    (comment : String) (pi : PropInfo) (hcp : canonicalPath env path = .ok up)
    (hprop : env.getProperty up = some pi) (hpv : pi.pathValueOk = true) :
    setValue env s path (some e) comment =
      if identicalGuard (some e) (lookupAL s.expressions up) then .ok (s, [])
      else
        match validateExpression env s up e with
        | .error msg => .error msg
        | .ok error =>
          if error.length > 0 then .error error
          else
            .ok ({ s with expressions := insertAL s.expressions up ⟨e, comment⟩ },
              [Op.aboutToSet] ++
              (match env.container, lookupAL s.expressions up with
                | some parent, some info =>
                  (info.expression.depObjects.filter (fun o => ¬ o == parent)).map
                    Op.removeBackLink
                | _, _ => []) ++
              (match env.container with
                | some parent =>
                  (e.depObjects.filter (fun o => ¬ o == parent)).map Op.addBackLink
                | none => []) ++ [Op.changed up, Op.hasSet]) := by
  rw [setValue_unfold env s path up (some e) comment hcp, hprop]
  simp [hpv]

/-- C2 (amended): if `validateExpression` produces a non-empty diagnostic
and the canonical path does not already hold the identical expression
object, then `setValue` raises exactly that diagnostic (and, the call
being rejected before any mutation, the store, back-links and
notifications are untouched).  `hidem` is the spec's idempotency of
canonicalization; `hprop`/`hpv` state that the canonical path resolves to
a property accepting path-style reads, which `setValue` probes before
validating. -/
theorem c2_validation_error_rejects (env : Env) (s : Engine) (path up : Nat) (e : Expr)
    (comment : String) (pi : PropInfo) (msg : String)
    (hcp : canonicalPath env path = .ok up)
    (hidem : canonicalPath env up = .ok up)
    (hprop : env.getProperty up = some pi)
    (hpv : pi.pathValueOk = true)
    (hguard : ∀ info, lookupAL s.expressions up = some info → info.expression.id ≠ e.id)
    (hval : validateExpression env s path e = .ok msg)
    (hmsg : msg.length > 0) :
    setValue env s path (some e) comment = .error msg := by
  rw [setValue_unfold2 env s path up e comment pi hcp hprop hpv]
  have hg : identicalGuard (some e) (lookupAL s.expressions up) = false := by
    rcases hl : lookupAL s.expressions up with _ | info
    · rfl
    · have : (info.expression.id == e.id) = false := by
        simp
        exact hguard info hl
      exact this
  rw [hg]
  have hval' : validateExpression env s up e = .ok msg := by
    rw [← validateExpression_canon env s path up e hcp hidem]
    exact hval
  rw [if_neg (by simp), hval']
  simp [hmsg]

/-- An engine holding the binding `7 -> e0` together with a validator
callback that rejects everything with the diagnostic `"boom"`. -/
def s2 : Engine := ⟨[(7, ⟨e0, ""⟩)], [], false, some (fun _ _ => "boom")⟩

theorem c2_validation_error_rejects_counterexample :
    validateExpression env1 s2 7 e0 = .ok "boom" ∧ ("boom" : String).length > 0 ∧
    setValue env1 s2 7 (some e0) "" = .ok (s2, []) := by
  refine ⟨rfl, by decide, rfl⟩

/-- An engine with the same rejecting validator but no binding at `7`. -/
def s3 : Engine := ⟨[], [], false, some (fun _ _ => "boom")⟩

theorem c2_validation_error_rejects_witness :
    setValue env1 s3 7 (some e0) "" = .error "boom" := by
  apply c2_validation_error_rejects env1 s3 7 7 e0 "" ⟨some 1, 0, false, false, true⟩ "boom"
    rfl rfl rfl rfl
  · intro info hl
    simp [lookupAL, s3] at hl
  · rfl
  · decide

/-- C7: when the canonical form of the path already holds a binding and
the supplied expression is the identical object (same identity, i.e. the
same C++ pointer, modelled by the `id` field) as the stored one,
`setValue` returns successfully with the engine unchanged and an empty
side-effect trace: no store update, no back-link change, no
notification.  The hypotheses `hprop`/`hpv` state that the canonical
path still resolves (the probe `setValue` performs before the shortcut). -/
theorem c7_identical_setValue_noop (env : Env) (s : Engine) (path up : Nat) (e : Expr)
    (comment : String) (info : ExpressionInfo) (pi : PropInfo)
    (hcp : canonicalPath env path = .ok up)
    (hprop : env.getProperty up = some pi) (hpv : pi.pathValueOk = true)
    (hl : lookupAL s.expressions up = some info) (hid : info.expression.id = e.id) :
    setValue env s path (some e) comment = .ok (s, []) := by
  rw [setValue_unfold2 env s path up e comment pi hcp hprop hpv]
  have hg : identicalGuard (some e) (lookupAL s.expressions up) = true := by
    rw [hl]
    simp [identicalGuard, hid]
  rw [hg]
  simp

theorem c7_identical_setValue_noop_witness :
    setValue env1 s2 7 (some e0) "x" = .ok (s2, []) :=
  c7_identical_setValue_noop env1 s2 7 7 e0 "x" ⟨e0, ""⟩ ⟨some 1, 0, false, false, true⟩
    rfl rfl rfl rfl rfl

/-- C4: the re-entrancy protocol of `execute`.  Conjunct 1: if the engine
is already running (and it has an owner, which `execute` checks first), a
nested call returns `StdReturn` immediately, with no writes and no state
change.  Conjunct 2: a non-nested call leaves the running flag `false` on
every exit path, error or success (the `resetter` destructor). -/
theorem c4_execute_reentrancy (env : Env) (s : Engine) (vals : Nat → Int) (output : Int) :
    (s.running = true → env.container.isSome → execute env s vals output = (.ok (vals, []), s)) ∧
    (s.running = false → ((execute env s vals output).2).running = false) := by
  constructor
  · intro hrun hcont
    unfold execute
    rcases hc : env.container with _ | d
    · rw [hc] at hcont
      simp at hcont
    · simp [hrun]
  · intro hrun
    unfold execute
    rcases hc : env.container with _ | d
    · simp [hrun]
    · simp only [hrun]
      simp only [Bool.false_eq_true, if_false]
      split
      · rfl
      · split
        · rfl
        · rfl

/-- An engine that is already executing. -/
def s4 : Engine := ⟨[], [], true, none⟩

theorem c4_execute_reentrancy_witness :
    execute env1 s4 (fun _ => 0) (-1) = (.ok ((fun _ => 0), []), s4) ∧
    ((execute env1 s1 (fun _ => 0) (-1)).2).running = false :=
  ⟨(c4_execute_reentrancy env1 s4 (fun _ => 0) (-1)).1 rfl rfl,
   (c4_execute_reentrancy env1 s1 (fun _ => 0) (-1)).2 rfl⟩

/-- C10: `getPathValue` is not total in the sense of `binding | absent`.
Conjunct 1: without a `DocumentObject` container the lookup throws.
Conjunct 2: a path that does not resolve to a property throws the
canonicalization error.  Conjunct 3: when canonicalization succeeds the
result is exactly the store lookup at the canonical path.  Conjunct 4:
`absent` is returned only when the path canonicalizes and the canonical
path has no binding. -/
theorem c10_getPathValue_raises (env : Env) (s : Engine) (path : Nat) :
    (env.container = none → getPathValue env s path =
      .error "PropertyExpressionEngine must be owned by a DocumentObject.") ∧
    (∀ d, env.container = some d → env.getProperty path = none →
      getPathValue env s path = .error (env.resolveErrorString path)) ∧
    (∀ up, canonicalPath env path = .ok up →
      getPathValue env s path = .ok (lookupAL s.expressions up)) ∧
    (getPathValue env s path = .ok none →
      ∃ up, canonicalPath env path = .ok up ∧ lookupAL s.expressions up = none) := by
  have hok : ∀ up, canonicalPath env path = .ok up →
      getPathValue env s path = .ok (lookupAL s.expressions up) := by
    intro up hcp
    unfold getPathValue
    rw [hcp]
  refine ⟨?_, ?_, hok, ?_⟩
  · intro hc
    have hcp : canonicalPath env path =
        .error "PropertyExpressionEngine must be owned by a DocumentObject." := by
      unfold canonicalPath
      rw [hc]
    unfold getPathValue
    rw [hcp]
  · intro d hc hp
    have hcp : canonicalPath env path = .error (env.resolveErrorString path) := by
      unfold canonicalPath
      rw [hc, hp]
    unfold getPathValue
    rw [hcp]
  · intro h
    rcases hcp : canonicalPath env path with m | up
    · have : getPathValue env s path = .error m := by
        unfold getPathValue
        rw [hcp]
      rw [this] at h
      simp at h
    · have := hok up hcp
      rw [this] at h
      simp only [Except.ok.injEq] at h
      exact ⟨up, rfl, h⟩

/-- `env1` with no `DocumentObject` container. -/
def env0n : Env := { env1 with container := none }

theorem c10_getPathValue_raises_witness :
    getPathValue env0n s1 7 =
      .error "PropertyExpressionEngine must be owned by a DocumentObject." ∧
    getPathValue env1 s1 8 = .error "path not found" ∧
    getPathValue env1 s2 7 = .ok (some ⟨e0, ""⟩) := by
  refine ⟨(c10_getPathValue_raises env0n s1 7).1 rfl, ?_, ?_⟩
  · exact (c10_getPathValue_raises env1 s1 8).2.1 1 rfl rfl
  · exact (c10_getPathValue_raises env1 s2 7).2.2.1 7 rfl

/-! ### Analysis of `renameExpressions` -/

/-- The key transformation induced by a canonicalized rename map. -/
def renKey (m : List (Nat × Nat)) (k : Nat) : Nat := (lookupAL m k).getD k

theorem renameFold_step (m : List (Nat × Nat)) (acc : ExpressionMap)
    (entry : Nat × ExpressionInfo) :
    (match lookupAL m entry.1 with
      | some newKey => insertAL acc newKey entry.2
      | none => insertAL acc entry.1 entry.2)
      = insertAL acc (renKey m entry.1) entry.2 := by
  unfold renKey
  rcases h : lookupAL m entry.1 with _ | nk <;> simp [h]

theorem insertAL_fresh {α : Type} {acc : List (Nat × α)} {k : Nat} {v : α}
    (h : lookupAL acc k = none) : insertAL acc k v = acc ++ [(k, v)] := by
  unfold insertAL
  rw [h]

theorem lookupAL_none_iff {α : Type} {l : List (Nat × α)} {k : Nat} :
    lookupAL l k = none ↔ ∀ v ∈ l, v.1 ≠ k := by
  unfold lookupAL
  rw [Option.map_eq_none', List.find?_eq_none]
  simp

theorem lookupAL_singleton_ne {α : Type} {k k' : Nat} {v : α} (h : k' ≠ k) :
    lookupAL [(k, v)] k' = none := by
  rw [lookupAL_none_iff]
  intro w hw
  rw [List.mem_singleton] at hw
  subst hw
  exact fun he => h he.symm

theorem renameFold_eq_map (m : List (Nat × Nat)) :
    ∀ (exprs : ExpressionMap) (acc : ExpressionMap),
      (∀ entry ∈ exprs, lookupAL acc (renKey m entry.1) = none) →
      ((exprs.map (fun v => renKey m v.1)).Nodup) →
      exprs.foldl (fun acc entry => insertAL acc (renKey m entry.1) entry.2) acc
        = acc ++ exprs.map (fun v => (renKey m v.1, v.2)) := by
  intro exprs
  induction exprs with
  | nil => intro acc _ _; simp
  | cons v rest ih =>
    intro acc hfresh hnd
    rw [List.map_cons, List.nodup_cons] at hnd
    simp only [List.foldl_cons]
    rw [insertAL_fresh (hfresh v (List.mem_cons_self v rest))]
    rw [ih (acc ++ [(renKey m v.1, v.2)]) ?_ hnd.2]
    · simp
    · intro entry he
      rw [lookupAL_append_none (hfresh entry (List.mem_cons_of_mem v he))]
      apply lookupAL_singleton_ne
      intro heq
      exact hnd.1 (heq ▸ List.mem_map_of_mem (fun v => renKey m v.1) he)

theorem renameFold_eq (m : List (Nat × Nat)) (exprs : ExpressionMap)
    (hnd : (exprs.map (fun v => renKey m v.1)).Nodup) :
    renameFold m exprs = exprs.map (fun v => (renKey m v.1, v.2)) := by
  unfold renameFold
  have hfn : (fun (acc : ExpressionMap) (entry : Nat × ExpressionInfo) =>
      match lookupAL m entry.1 with
      | some newKey => insertAL acc newKey entry.2
      | none => insertAL acc entry.1 entry.2)
      = fun acc entry => insertAL acc (renKey m entry.1) entry.2 := by
    funext acc entry
    exact renameFold_step m acc entry
  rw [hfn, renameFold_eq_map m exprs [] (fun entry _ => rfl) hnd]
  simp

theorem renKey_single (a b k : Nat) : renKey [(a, b)] k = if k = a then b else k := by
  unfold renKey lookupAL
  by_cases h : k = a
  · subst h
    simp
  · have hne : (a == k) = false := by
      simp
      exact fun he => h he.symm
    simp [List.find?, hne]
    rw [if_neg h]

theorem ren_nodup {keys : List Nat} {a b : Nat} (hnd : keys.Nodup) (hb : b ∉ keys) :
    (keys.map (fun k => if k = a then b else k)).Nodup := by
  apply List.Nodup.map_on ?_ hnd
  intro x hx y hy hf
  by_cases hxa : x = a <;> by_cases hya : y = a
  · rw [hxa, hya]
  · rw [if_pos hxa, if_neg hya] at hf
    exact absurd (hf ▸ hy) hb
  · rw [if_neg hxa, if_pos hya] at hf
    exact absurd (hf.symm ▸ hx) hb
  · rwa [if_neg hxa, if_neg hya] at hf

theorem renameExpressions_single (env : Env) (s : Engine) (a b : Nat)
    (hca : canonicalPath env a = .ok a) :
    renameExpressions env s [(a, b)] =
      .ok ({ s with expressions := renameFold [(a, b)] s.expressions },
        [Op.aboutToSet] ++
          (renameFold [(a, b)] s.expressions).map (fun e => Op.changed e.1) ++
          [Op.hasSet]) := by
  unfold renameExpressions
  simp only [List.foldlM_cons, List.foldlM_nil, hca]
  rfl

/-- C6: `renamePaths({a -> b})` followed by `renamePaths({b -> a})`, with
`a`, `b` canonical resolvable paths and `b` not already a key of the
store (whose keys are distinct, the store invariant), restores the store
exactly: same keys, same expressions, same comments. -/
theorem c6_renamePaths_roundtrip (env : Env) (s : Engine) (a b : Nat)
    (r1 r2 : Engine × List Op)
    (hnd : (s.expressions.map (fun v => v.1)).Nodup)
    (hb : lookupAL s.expressions b = none)
    (hca : canonicalPath env a = .ok a) (hcb : canonicalPath env b = .ok b)
    (h1 : renameExpressions env s [(a, b)] = .ok r1)
    (h2 : renameExpressions env r1.1 [(b, a)] = .ok r2) :
    r2.1.expressions = s.expressions := by
  have hbmem : b ∉ s.expressions.map (fun v => v.1) := by
    rw [lookupAL_none_iff] at hb
    intro hmem
    obtain ⟨v, hv, hveq⟩ := List.mem_map.mp hmem
    exact hb v hv hveq
  have hnd1 : (s.expressions.map (fun v => renKey [(a, b)] v.1)).Nodup := by
    have : (s.expressions.map (fun v => renKey [(a, b)] v.1))
        = (s.expressions.map (fun v => v.1)).map (fun k => if k = a then b else k) := by
      rw [List.map_map]
      apply List.map_congr_left
      intro v _
      simp only [Function.comp]
      rw [renKey_single]
    rw [this]
    exact ren_nodup hnd hbmem
  rw [renameExpressions_single env s a b hca] at h1
  have hr1 : r1.1.expressions = s.expressions.map (fun v => (renKey [(a, b)] v.1, v.2)) := by
    cases h1
    exact renameFold_eq [(a, b)] s.expressions hnd1
  have hcompose : ∀ v ∈ s.expressions, renKey [(b, a)] (renKey [(a, b)] v.1) = v.1 := by
    intro v hv
    rw [renKey_single, renKey_single]
    by_cases hva : v.1 = a
    · simp [hva]
    · have hvb : v.1 ≠ b := by
        intro he
        exact hbmem (he ▸ List.mem_map_of_mem (fun v => v.1) hv)
      rw [if_neg hva, if_neg hvb]
  have hnd2 : (r1.1.expressions.map (fun v => renKey [(b, a)] v.1)).Nodup := by
    rw [hr1, List.map_map]
    have : (s.expressions.map ((fun v => renKey [(b, a)] v.1) ∘
        (fun v => (renKey [(a, b)] v.1, v.2)))) = s.expressions.map (fun v => v.1) := by
      apply List.map_congr_left
      intro v hv
      simp only [Function.comp]
      exact hcompose v hv
    rw [this]
    exact hnd
  rw [renameExpressions_single env r1.1 b a hcb] at h2
  have hr2 : r2.1.expressions
      = r1.1.expressions.map (fun v => (renKey [(b, a)] v.1, v.2)) := by
    cases h2
    exact renameFold_eq [(b, a)] r1.1.expressions hnd2
  rw [hr2, hr1, List.map_map]
  have : (s.expressions.map ((fun v => (renKey [(b, a)] v.1, v.2)) ∘
      (fun v => (renKey [(a, b)] v.1, v.2)))) = s.expressions.map (fun v => v) := by
    apply List.map_congr_left
    intro v hv
    simp only [Function.comp]
    rw [hcompose v hv]
  rw [this, List.map_id']

/-- A host resolving the two paths `7` and `8` to ordinary properties of
the owner, with identity canonicalization. -/
def env78 : Env :=
  { env1 with getProperty := fun p =>
      if p = 7 ∨ p = 8 then some ⟨some 1, 0, false, false, true⟩ else none }

theorem c6_renamePaths_roundtrip_witness :
    ∃ r1 r2, renameExpressions env78 s2 [(7, 8)] = .ok r1 ∧
      renameExpressions env78 r1.1 [(8, 7)] = .ok r2 ∧
      r2.1.expressions = s2.expressions := by
  refine ⟨_, _, rfl, rfl, ?_⟩
  exact c6_renamePaths_roundtrip env78 s2 7 8 _ _ (by decide) rfl rfl rfl rfl rfl

/-- C8: behaviour of the graph builder on one binding.  Conjunct 1: the
pushed edges are exactly one per contributing dependency path (the
`object -> property -> paths` entries with a non-empty property name,
canonicalized by `canonDeps` before indexing), each running from the node
index of the binding's output path to the node index of the canonical
dependency path.  Conjunct 2: the node map gains exactly the output path
and the canonical contributing dependency paths, so empty-property
entries contribute neither an edge nor a node. -/
theorem c8_buildGraphStructures_edges (env : Env) (path : Nat) (e : Expr) (st : GraphState) :
    (buildGraphStructures env path e st).edges = st.edges ++
      (canonDeps env e).map (fun c =>
        ((lookupAL (buildGraphStructures env path e st).nodes path).getD 0,
         (lookupAL (buildGraphStructures env path e st).nodes c).getD 0)) ∧
    (∀ q, (lookupAL (buildGraphStructures env path e st).nodes q).isSome = true
      ↔ ((lookupAL st.nodes q).isSome = true ∨ q = path ∨ q ∈ canonDeps env e)) := by
  constructor
  · obtain ⟨ip, hip, hedges⟩ := bgs_main env path e st
    rw [hedges]
    congr 1
    apply List.map_congr_left
    intro c _
    rw [hip]
    rfl
  · exact bgs_isSome env path e st

theorem foldl_insertAL_eq_append {β : Type} (f : β → Nat × ExpressionInfo) :
    ∀ (l : List β) (acc : ExpressionMap),
      (∀ t ∈ l, lookupAL acc (f t).1 = none) →
      ((l.map (fun t => (f t).1)).Nodup) →
      l.foldl (fun acc t => insertAL acc (f t).1 (f t).2) acc = acc ++ l.map f := by
  intro l
  induction l with
  | nil => intro acc _ _; simp
  | cons t rest ih =>
    intro acc hfresh hnd
    rw [List.map_cons, List.nodup_cons] at hnd
    simp only [List.foldl_cons]
    rw [insertAL_fresh (hfresh t (List.mem_cons_self t rest))]
    rw [ih (acc ++ [f t]) ?_ hnd.2]
    · simp
    · intro u hu
      have : acc ++ [f t] = acc ++ [((f t).1, (f t).2)] := by
        simp
      rw [this, lookupAL_append_none (hfresh u (List.mem_cons_of_mem t hu))]
      apply lookupAL_singleton_ne
      intro heq
      exact hnd.1 (heq ▸ List.mem_map_of_mem (fun t => (f t).1) hu)

/-- C9: `Restore` stages exactly the `count` parsed `(path, expression,
comment)` entries into the staging store without touching the live store;
the staged bindings are installed into the live store only via
`onDocumentRestored`, whose drain runs `setValue` (hence validation and
back-link registration) on each staged entry in order.  The hypotheses
say the serialized form supplies at least `count` entries with distinct
paths (as produced by `Save`, which iterates a unique-key map). -/
theorem c9_restore_staging (env : Env) (s : Engine) (count : Nat)
    (entries : List (Nat × Expr × String))
    (hc : count ≤ entries.length)
    (hnd : ((entries.take count).map (fun t => t.1)).Nodup) :
    (Restore s count entries).expressions = s.expressions ∧
    (Restore s count entries).restoredExpressions
      = (entries.take count).map (fun t => (t.1, ⟨t.2.1, t.2.2⟩)) ∧
    (Restore s count entries).restoredExpressions.length = count ∧
    onDocumentRestored env (Restore s count entries)
      = drainRestored env (Restore s count entries)
          ((entries.take count).map (fun t => (t.1, ⟨t.2.1, t.2.2⟩))) := by
  have hstaged : (Restore s count entries).restoredExpressions
      = (entries.take count).map (fun t => (t.1, ⟨t.2.1, t.2.2⟩)) := by
    unfold Restore
    have h := foldl_insertAL_eq_append (fun t : Nat × Expr × String => (t.1, ⟨t.2.1, t.2.2⟩))
      (entries.take count) [] (fun t _ => rfl) (by simpa using hnd)
    simpa using h
  refine ⟨rfl, hstaged, ?_, ?_⟩
  · rw [hstaged, List.length_map, List.length_take]
    omega
  · unfold onDocumentRestored
    rw [hstaged]

theorem c9_restore_staging_witness :
    (Restore s1 1 [(7, e0, "k")]).expressions = s1.expressions ∧
    (Restore s1 1 [(7, e0, "k")]).restoredExpressions = [(7, ⟨e0, "k"⟩)] ∧
    (Restore s1 1 [(7, e0, "k")]).restoredExpressions.length = 1 ∧
    onDocumentRestored env1 (Restore s1 1 [(7, e0, "k")])
      = drainRestored env1 (Restore s1 1 [(7, e0, "k")]) [(7, ⟨e0, "k"⟩)] := by
  have h := c9_restore_staging env1 s1 1 [(7, e0, "k")] (by decide) (by decide)
  exact h

/-- An expression (identity 2) referencing object `5` through the
dependency path `20`. -/
def exprD : Expr := ⟨2, [(5, [("Width", [20])])], [5], fun _ => 0⟩

/-- A host where the owner is object `1`, path `10` is a property of the
owner, and path `20` is a property of the foreign object `5`. -/
def env5 : Env where
  container := some 1
  getProperty := fun p =>
    if p = 10 then some ⟨some 1, 0, false, false, true⟩
    else if p = 20 then some ⟨some 5, 0, false, false, true⟩
    else none
  oidCanonical := fun p => p
  oidDocObj := fun _ => some 1
  inListEx := fun _ => []
  objName := fun _ => "obj"
  pathToString := fun _ => "p"
  resolveErrorString := fun _ => "path not found"

/-- A store with the single binding `10 -> exprD`, which depends on
object `5`. -/
def s5 : Engine := ⟨[(10, ⟨exprD, ""⟩)], [], false, none⟩

/-- C5 (code-bug evaluation): `breakDependency([5])` on a store whose
only binding references object `5` succeeds but removes nothing, because
the paths it hands to `setValue(path, null)` are the dependency paths
into object `5` (here `20`), which are not keys of the binding store;
after the call the binding still references `5`. -/
theorem c5_breakDependency_removes_nothing :
    (breakDependency env5 s5 [5]).map (fun r => r.1.expressions) = .ok s5.expressions ∧
    s5.expressions.any (fun v => v.2.expression.depObjects.contains 5) = true := by
  exact ⟨rfl, rfl⟩

/-- An expression (identity 3) bound at path `1`, reading path `2`. -/
def exprA : Expr := ⟨3, [(1, [("x", [2])])], [1], fun v => v 2 + 1⟩

/-- A constant expression (identity 4) with no dependencies. -/
def exprC : Expr := ⟨4, [], [], fun _ => 42⟩

/-- A host where the owner is object `1` and paths `1`, `2`, `3` resolve
to its properties. -/
def env3 : Env where
  container := some 1
  getProperty := fun p => if p ≤ 3 then some ⟨some 1, 0, false, false, true⟩ else none
  oidCanonical := fun p => p
  oidDocObj := fun _ => some 1
  inListEx := fun _ => []
  objName := fun _ => "obj"
  pathToString := fun _ => "p"
  resolveErrorString := fun _ => "path not found"

/-- A store binding path `1` to `exprA` (which depends on path `2`) and
path `3` to the dependency-free `exprC`.  The dense indices are `1 -> 0`,
`2 -> 1`, `3 -> 2`, but the graph is created with `revNodes.size() = 2`
vertices and its edges stop at index `1`, so vertex `2` does not exist. -/
def s3e : Engine := ⟨[(1, ⟨exprA, ""⟩), (3, ⟨exprC, ""⟩)], [], false, none⟩

/-- C3 (code-bug evaluation): with the acyclic two-binding store `s3e`
(all paths resolvable, correct owner), the evaluation order contains only
path `1`: the binding at path `3` received dense index `2`, beyond the
`DiGraph(revNodes.size())` vertex count, and is dropped.  `execute`
consequently writes path `1` only, not every bound path. -/
theorem c3_execute_drops_binding :
    computeEvaluationOrder env3 s3e.expressions (-1) = .ok [1] ∧
    (lookupAL s3e.expressions 3).isSome = true ∧
    ((execute env3 s3e (fun _ => 0) (-1)).1.map (fun r => r.2.map (fun w => w.1)))
      = .ok [1] := by
  exact ⟨rfl, rfl, rfl⟩

end PEE
